import Mathlib

/-!
Shallow embedding of the `qosst-sim` CV-QKD simulation engine.

Each definition below is translated from one function or constructor of the
Python sources (`qosst_sim/utils.py`, `qosst_sim/detector.py`,
`qosst_sim/channel.py`, `qosst_sim/modulation/*.py`,
`qosst_sim/simulator/*.py`).  Floats are modelled by real numbers; the
claims proved at the end of the file are about these definitions.
-/

namespace QosstSim

/-! ## Math utilities (`qosst_sim/utils.py`) -/

/-- `utils.kron(i, j)`: Kronecker delta on integers, `int(i == j)`. -/
def kron (i j : ℤ) : ℤ := if i = j then 1 else 0

/-- `utils.g(x)`: `(x + 1) * log2(x + 1) - x * log2(x)`, the von Neumann
entropy function of a thermal state. -/
noncomputable def g (x : ℝ) : ℝ :=
  (x + 1) * Real.logb 2 (x + 1) - x * Real.logb 2 x

/-- `utils.delta(v, w, z) = v**2 + w**2 - 2*z**2`. -/
def delta (v w z : ℝ) : ℝ := v ^ 2 + w ^ 2 - 2 * z ^ 2

/-- `utils.gamma(v, w, z) = v**2*w**2 - 2*v*w*z**2 + z**4`. -/
def gamma (v w z : ℝ) : ℝ := v ^ 2 * w ^ 2 - 2 * v * w * z ^ 2 + z ^ 4

/-- `utils.transmission(distance) = 10 ** (-0.02 * distance)`. -/
noncomputable def transmission (distance : ℝ) : ℝ := 10 ^ (-0.02 * distance)

/-! ## Detectors (`qosst_sim/detector.py`) -/

/-- The two detector variants.  `IdealHeterodyneDetector.__init__` fixes
`eta = 1`, `vel = 0`; `NoisyHeterodyneDetector.__init__` stores its two
arguments. -/
inductive Detector
  | ideal
  | noisy (eta vel : ℝ)

/-- The `eta` attribute of a detector. -/
def Detector.eta : Detector → ℝ
  | .ideal => 1
  | .noisy e _ => e

/-- The `vel` attribute of a detector. -/
def Detector.vel : Detector → ℝ
  | .ideal => 0
  | .noisy _ v => v

/-- `IdealHeterodyneDetector.sympl(V, W, Z)`: the triple `(v1, v2, v3)` with
`v1, v2 = sqrt((delta ± sqrt(delta² - 4·gamma)) / 2)` and
`v3 = V - Z² / (W + 1)`. -/
noncomputable def idealSympl (V W Z : ℝ) : ℝ × ℝ × ℝ :=
  let delt := delta V W Z
  let gam := gamma V W Z
  let v1 := Real.sqrt ((delt + Real.sqrt (delt ^ 2 - 4 * gam)) / 2)
  let v2 := Real.sqrt ((delt - Real.sqrt (delt ^ 2 - 4 * gam)) / 2)
  let v3 := V - Z ^ 2 / (W + 1)
  (v1, v2, v3)

/-- `IdealHeterodyneDetector.holevo_bound(V, W, Z)`:
`g((v1-1)/2) + g((v2-1)/2) - g((v3-1)/2)` on the eigenvalues of `sympl`. -/
noncomputable def idealHolevoBound (V W Z : ℝ) : ℝ :=
  let v := idealSympl V W Z
  g ((v.1 - 1) / 2) + g ((v.2.1 - 1) / 2) - g ((v.2.2 - 1) / 2)

/-- The big quotient assigned to `r1` in `NoisyHeterodyneDetector.sympl`,
including the subsequent `r1 -= 1`, with the auxiliary constant `nu` kept as
an explicit parameter (the source computes `nu` and then overwrites it). -/
noncomputable def noisyR1 (eta nu V W Z : ℝ) : ℝ :=
  ((V * (1 + eta * W + nu - eta * nu) - eta * Z ^ 2) ^ 2
      + (eta * nu + W * (1 - eta + nu)) ^ 2
      + (1 + nu + eta * (W * nu - 1)) ^ 2
      - 2 * (1 - eta) * (nu + 1) ^ 2 * Z ^ 2
      - 2 * eta * (1 - eta) * (nu ^ 2 - 1) * Z ^ 2
      - 2 * eta * (nu ^ 2 - 1) * (1 + W) ^ 2)
    / ((1 + W * eta + nu - eta * nu) ^ 2)
    - 1

/-- The quotient assigned to `r2` in `NoisyHeterodyneDetector.sympl`, with
`nu` kept as an explicit parameter. -/
noncomputable def noisyR2 (eta nu V W Z : ℝ) : ℝ :=
  (Z ^ 2 - V * (W + eta) + (V * W - Z ^ 2) * (-1 + eta) * nu) ^ 2
    / (1 + W * eta + nu - eta * nu) ^ 2

/-- `NoisyHeterodyneDetector.sympl(V, W, Z)`.  The source first assigns
`nu = 1 + 2 * vel / (1 - eta)` and on the very next line unconditionally
overwrites it with `nu = 1`; the overwritten value is the one used by
`r1` and `r2`.  Both assignments are kept here verbatim. -/
noncomputable def noisySympl (eta vel V W Z : ℝ) : ℝ × ℝ × ℝ × ℝ :=
  let delt := delta V W Z
  let gam := gamma V W Z
  let v1 := Real.sqrt ((delt + Real.sqrt (delt ^ 2 - 4 * gam)) / 2)
  let v2 := Real.sqrt ((delt - Real.sqrt (delt ^ 2 - 4 * gam)) / 2)
  let nu := 1 + 2 * vel / (1 - eta)
  let nu := (1 : ℝ)
  let r1 := noisyR1 eta nu V W Z
  let r2 := noisyR2 eta nu V W Z
  let v3 := Real.sqrt (0.5 * (r1 + Real.sqrt (r1 ^ 2 - 4 * r2)))
  let v4 := Real.sqrt (0.5 * (r1 - Real.sqrt (r1 ^ 2 - 4 * r2)))
  (v1, v2, v3, v4)

/-- `NoisyHeterodyneDetector.holevo_bound(V, W, Z)`:
`g((v1-1)/2) + g((v2-1)/2) - g((v3-1)/2) - g((v4-1)/2)`. -/
noncomputable def noisyHolevoBound (eta vel V W Z : ℝ) : ℝ :=
  let v := noisySympl eta vel V W Z
  g ((v.1 - 1) / 2) + g ((v.2.1 - 1) / 2) - g ((v.2.2.1 - 1) / 2)
    - g ((v.2.2.2 - 1) / 2)

/-- Polymorphic `detector.sympl(V, W, Z)`: the list of symplectic
eigenvalues returned by the detector (three for the ideal variant, four for
the noisy one). -/
noncomputable def Detector.sympl : Detector → ℝ → ℝ → ℝ → List ℝ
  | .ideal, V, W, Z =>
      [(idealSympl V W Z).1, (idealSympl V W Z).2.1, (idealSympl V W Z).2.2]
  | .noisy eta vel, V, W, Z =>
      [(noisySympl eta vel V W Z).1, (noisySympl eta vel V W Z).2.1,
        (noisySympl eta vel V W Z).2.2.1, (noisySympl eta vel V W Z).2.2.2]

/-- Polymorphic `detector.holevo_bound(V, W, Z)`. -/
noncomputable def Detector.holevoBound : Detector → ℝ → ℝ → ℝ → ℝ
  | .ideal, V, W, Z => idealHolevoBound V W Z
  | .noisy eta vel, V, W, Z => noisyHolevoBound eta vel V W Z

/-! ## Simulator base class (`qosst_sim/simulator/simulator.py`)

A `Simulator` value records the attributes that the shared methods
`covariance()` and `skr()` read: the modulation's `va` and `w`, the
detector, `beta`, the three variant-specific scalars `c1`, `c2`, `n_B`,
and the value of the variant-specific method `snr()`. -/

structure Simulator where
  va : ℝ
  w : ℝ
  detector : Detector
  beta : ℝ
  c1 : ℝ
  c2 : ℝ
  nB : ℝ
  snr : ℝ

/-- `Simulator.covariance()`:
`v = modulation.va + 1`, `w = 2*n_B + 1`,
`racine = modulation.w * (n_B - 2*c2**2 / modulation.va)`,
`z_star = (2*c1 - 2*np.sqrt(racine)).real`.
All quantities involved are real floats at run time (`np.sqrt` applied to a
float stays a float), so the trailing `.real` is the identity here. -/
noncomputable def Simulator.covariance (s : Simulator) : ℝ × ℝ × ℝ :=
  let v := s.va + 1
  let w := 2 * s.nB + 1
  let racine := s.w * (s.nB - 2 * s.c2 ^ 2 / s.va)
  let zStar := 2 * s.c1 - 2 * Real.sqrt racine
  (v, w, zStar)

/-- `Simulator.skr()`: unpacks `(v, w, z) = covariance()` and returns
`beta * log2(1 + snr()) - detector.holevo_bound(v, w, z)`. -/
noncomputable def Simulator.skr (s : Simulator) : ℝ :=
  s.beta * Real.logb 2 (1 + s.snr)
    - s.detector.holevoBound s.covariance.1 s.covariance.2.1 s.covariance.2.2

/-- A concrete simulator state used to instantiate theorems with
hypotheses: `va = 1`, `w = 0`, ideal detector, `beta = 1`, `c1 = c2 = 0`,
`n_B = 1`, `snr = 0`. -/
noncomputable def simExample : Simulator :=
  { va := 1, w := 0, detector := .ideal, beta := 1,
    c1 := 0, c2 := 0, nB := 1, snr := 0 }

/-! ## Channel (`qosst_sim/channel.py`) -/

/-- The standard deviation passed to both `np.random.normal` calls in
`GaussianChannel.sample_output`: `0.5 * np.sqrt(1 + vel + eta * t * xi / 2)`. -/
noncomputable def noiseSigma (t xi eta vel : ℝ) : ℝ :=
  0.5 * Real.sqrt (1 + vel + eta * t * xi / 2)

/-- `GaussianChannel.sample_output(symbols, detector)` with the two length-`n`
pseudo-random draws `noise_r` and `noise_i` made explicit parameters: the
returned array is `np.sqrt(t * eta / 2) * symbols + noise_r + 1j * noise_i`,
elementwise. -/
noncomputable def sampleOutput (t eta : ℝ) (symbols : List ℂ)
    (noiseR noiseI : List ℝ) : List ℂ :=
  List.zipWith
    (fun s (n : ℝ × ℝ) =>
      (Real.sqrt (t * eta / 2) : ℂ) * s + (n.1 : ℂ) + Complex.I * (n.2 : ℂ))
    symbols (noiseR.zip noiseI)

/-- Elementwise affine combination `c * l₁ + (1 - c) * l₂` of two arrays. -/
def affineCombo (c : ℂ) (l₁ l₂ : List ℂ) : List ℂ :=
  List.zipWith (fun a b => c * a + (1 - c) * b) l₁ l₂

/-! ## QAM constellations (`qosst_sim/modulation/binomial_qam.py`,
`qosst_sim/modulation/gaussian_qam.py`)

Both constructors enumerate `itertools.product(quadratures, quadratures)`
with `quadratures = range(-size + 1, size, 2)`, i.e. the pair of indices
`(k, l)` (outer loop `k`) is mapped to the lattice point
`(2k - (size-1)) + i*(2l - (size-1))`. -/

/-- Index pairs of `itertools.product(range(n), range(n))`, outer index
first. -/
def prodIdx (n : ℕ) : List (ℕ × ℕ) :=
  (List.range n).bind fun k => (List.range n).map fun l => (k, l)

/-- The unscaled lattice point of index pair `p`:
`(2*p.1 - (size-1)) + 1j * (2*p.2 - (size-1))`. -/
noncomputable def latticePoint (size : ℕ) (p : ℕ × ℕ) : ℂ :=
  (((2 * (p.1 : ℤ) - ((size : ℤ) - 1) : ℤ) : ℝ) : ℂ)
    + Complex.I * (((2 * (p.2 : ℤ) - ((size : ℤ) - 1) : ℤ) : ℝ) : ℂ)

/-- `BinomialQAM.__init__`: the probability distribution
`2**(-2*(size-1)) * comb(size-1, k) * comb(size-1, l)` over
`product(range(size), range(size))`. -/
noncomputable def binomialDistribution (size : ℕ) : List ℝ :=
  (prodIdx size).map fun p =>
    (2 : ℝ) ^ (-(2 * ((size - 1 : ℕ) : ℤ)))
      * ((size - 1).choose p.1 : ℝ) * ((size - 1).choose p.2 : ℝ)

/-- `BinomialQAM.__init__`: the renormalised constellation
`constellation * sqrt(va / (4 * (size - 1)))`. -/
noncomputable def binomialConstellation (size : ℕ) (va : ℝ) : List ℂ :=
  (prodIdx size).map fun p =>
    latticePoint size p * ((Real.sqrt (va / (4 * ((size - 1 : ℕ) : ℝ))) : ℝ) : ℂ)

/-- `GaussianQAM.__init__`: the unscaled constellation (the local variable
`constellation` before rescaling). -/
noncomputable def gaussianUnscaled (size : ℕ) : List ℂ :=
  (prodIdx size).map (latticePoint size)

/-- `GaussianQAM.__init__`: `total_weight = sum(np.exp(-nu * abs(constellation) ** 2))`. -/
noncomputable def gaussianTotalWeight (size : ℕ) (nu : ℝ) : ℝ :=
  ((gaussianUnscaled size).map fun α => Real.exp (-nu * Complex.abs α ^ 2)).sum

/-- `GaussianQAM.__init__`: the probability distribution
`np.exp(-nu * abs(constellation) ** 2) / total_weight`. -/
noncomputable def gaussianDistribution (size : ℕ) (nu : ℝ) : List ℝ :=
  (gaussianUnscaled size).map fun α =>
    Real.exp (-nu * Complex.abs α ^ 2) / gaussianTotalWeight size nu

/-- `GaussianQAM.__init__`: the dot product
`np.dot(np.abs(constellation) ** 2, self.distribution)` of the unscaled
constellation's squared moduli with the distribution. -/
noncomputable def gaussianSecondMomentRaw (size : ℕ) (nu : ℝ) : ℝ :=
  (List.zipWith (fun (α : ℂ) (w : ℝ) => Complex.abs α ^ 2 * w)
    (gaussianUnscaled size) (gaussianDistribution size nu)).sum

/-- `GaussianQAM.__init__`: the renormalised constellation
`constellation * np.sqrt(va / (2 * np.dot(np.abs(constellation)**2, distribution)))`. -/
noncomputable def gaussianConstellation (size : ℕ) (va nu : ℝ) : List ℂ :=
  (gaussianUnscaled size).map fun α =>
    α * ((Real.sqrt (va / (2 * gaussianSecondMomentRaw size nu)) : ℝ) : ℂ)

/-- The weighted second moment `Σ_k distribution[k] * |constellation[k]|²`
of a constellation under a probability distribution aligned by index. -/
noncomputable def secondMoment (distribution : List ℝ) (constellation : List ℂ) : ℝ :=
  (List.zipWith (fun w α => w * Complex.abs α ^ 2) distribution constellation).sum

/-! ## QAM Fock-space attributes (`qosst_sim/modulation/qam.py`) -/

/-- `QAM.__init__`: the truncated annihilation operator,
`a[i, j] = sqrt(j) * kron(j - 1, i)` (complex entries, real values). -/
noncomputable def annihilationMatrix (dim : ℕ) : Matrix (Fin dim) (Fin dim) ℂ :=
  Matrix.of fun i j =>
    ((Real.sqrt (j : ℕ) * ((kron (((j : ℕ) : ℤ) - 1) ((i : ℕ) : ℤ) : ℤ) : ℝ) : ℝ) : ℂ)

/-- The attributes of a constructed QAM modulation that the asymptotic
calculator reads: the truncation dimension, `va`, `w`, and the stored
matrix `tau_half` (the principal square root of the `tau` matrix, computed
numerically by `scipy.linalg.sqrtm` at construction time and kept here as
data). -/
structure QAM where
  dim : ℕ
  va : ℝ
  w : ℝ
  tauHalf : Matrix (Fin dim) (Fin dim) ℂ

/-- The stored attribute `self.a` of a QAM modulation, built by
`QAM.__init__` from `dim` alone. -/
noncomputable def QAM.a (q : QAM) : Matrix (Fin q.dim) (Fin q.dim) ℂ :=
  annihilationMatrix q.dim

/-! ## Simulator variants (`qosst_sim/simulator/*.py`) -/

/-- `GaussianChannelAsymptoticCalculator.__init__` and its `snr()` method:
`n_B = t*(va + xi)/2`, `c1 = sqrt(t) * (tau_half @ a @ tau_half @ a.T).trace().real`,
`c2 = sqrt(t)*va/2`, `snr = t*va*eta / (2 + 2*vel + eta*t*xi)`. -/
noncomputable def gaussianChannelAsymptoticCalculator (q : QAM) (t xi : ℝ)
    (d : Detector) (beta : ℝ) : Simulator :=
  { va := q.va, w := q.w, detector := d, beta := beta,
    nB := t * (q.va + xi) / 2,
    c1 := Real.sqrt t * (Matrix.trace (q.tauHalf * q.a * q.tauHalf * Matrix.transpose q.a)).re,
    c2 := Real.sqrt t * q.va / 2,
    snr := t * q.va * d.eta / (2 + 2 * d.vel + d.eta * t * xi) }

/-- `GaussianModulationAsymptoticCalculator.__init__` and its `snr()`
method (`GaussianModulation` sets `w = 0`): `n_B = t*(va + xi)/2`,
`c1 = sqrt(t*va/2*(va/2 + 1))`, `c2 = sqrt(t)*va/2`, same `snr` formula. -/
noncomputable def gaussianModulationAsymptoticCalculator (va t xi : ℝ)
    (d : Detector) (beta : ℝ) : Simulator :=
  { va := va, w := 0, detector := d, beta := beta,
    nB := t * (va + xi) / 2,
    c1 := Real.sqrt (t * va / 2 * (va / 2 + 1)),
    c2 := Real.sqrt t * va / 2,
    snr := t * va * d.eta / (2 + 2 * d.vel + d.eta * t * xi) }

/-! ## Run-time division behaviour of `covariance()` (`simulator.py` line
100, `2 * self.c2**2 / (self.modulation.va)`)

In the two asymptotic calculators `c2` is a plain Python `float`
(`sqrt(t) * va / 2` built with `math.sqrt`), so this division raises
`ZeroDivisionError` when `va == 0`.  In `FiniteSizeSimulator`, `c2` is a
numpy scalar (`c2.real` of a numpy complex accumulator, line 135 of
`finite_size_simulator.py`), and numpy float division by zero does not
raise: it emits a `RuntimeWarning` and produces a non-finite value.  Both
behaviours are modelled below; the non-finite numpy result is represented
by the junk value of Lean's total real division. -/

/-- The error raised by Python `float` division by zero. -/
inductive PyError
  | zeroDivision
deriving DecidableEq

/-- Python `float` division: raises `ZeroDivisionError` when the divisor
is zero. -/
noncomputable def pydiv (x y : ℝ) : Except PyError ℝ :=
  if y = 0 then .error .zeroDivision else .ok (x / y)

/-- numpy `float64` division: total, never raises; division by zero yields
a non-finite value (modelled by total real division). -/
noncomputable def npdiv (x y : ℝ) : ℝ := x / y

/-- `Simulator.covariance()` as executed when `c1`, `c2`, `n_B` are plain
Python floats (the two asymptotic calculators). -/
noncomputable def covariancePython (va w c1 c2 nB : ℝ) :
    Except PyError (ℝ × ℝ × ℝ) :=
  (pydiv (2 * c2 ^ 2) va).map fun q =>
    (va + 1, 2 * nB + 1, 2 * c1 - 2 * Real.sqrt (w * (nB - q)))

/-- `Simulator.covariance()` as executed when `c1`, `c2`, `n_B` are numpy
scalars (`FiniteSizeSimulator`): never raises. -/
noncomputable def covarianceNumpy (va w c1 c2 nB : ℝ) : ℝ × ℝ × ℝ :=
  (va + 1, 2 * nB + 1, 2 * c1 - 2 * Real.sqrt (w * (nB - npdiv (2 * c2 ^ 2) va)))

/-! ## Helper lemmas -/

/-- Evaluate a square root at a perfect square. -/
lemma sqrt_eval {a b : ℝ} (hb : 0 ≤ b) (h : b ^ 2 = a) : Real.sqrt a = b := by
  rw [← h, Real.sqrt_sq hb]

/-- Sum of a map over `List.range` as a `Finset.range` sum. -/
lemma sum_map_range {M : Type*} [AddCommMonoid M] (f : ℕ → M) (n : ℕ) :
    ((List.range n).map f).sum = ∑ i ∈ Finset.range n, f i := by
  induction n with
  | zero => rfl
  | succ n ih =>
      rw [List.range_succ, List.map_append, List.sum_append, Finset.sum_range_succ, ih]
      simp

/-- Sum of a map over a `bind`. -/
lemma sum_map_bind {α β : Type*} {M : Type*} [AddCommMonoid M] (l : List α)
    (gl : α → List β) (f : β → M) :
    ((l.bind gl).map f).sum = (l.map fun a => (((gl a).map f).sum)).sum := by
  induction l with
  | nil => rfl
  | cons a l ih => simp [ih]

/-- Sum of a map over `prodIdx` as a double `Finset.range` sum. -/
lemma sum_map_prodIdx {M : Type*} [AddCommMonoid M] (f : ℕ × ℕ → M) (n : ℕ) :
    ((prodIdx n).map f).sum = ∑ k ∈ Finset.range n, ∑ l ∈ Finset.range n, f (k, l) := by
  rw [prodIdx, sum_map_bind, sum_map_range]
  refine Finset.sum_congr rfl fun k _ => ?_
  rw [List.map_map]
  rw [sum_map_range]
  rfl

/-- `prodIdx n` has `n * n` entries. -/
lemma prodIdx_length (n : ℕ) : (prodIdx n).length = n * n := by
  rw [prodIdx, List.length_bind]
  have h : (List.map (List.length ∘ fun k => (List.range n).map fun l => (k, l))
      (List.range n)) = List.map (fun _ => n) (List.range n) := by
    refine List.map_congr_left fun a _ => ?_
    simp
  rw [h]
  rw [show (fun (_ : ℕ) => n) = Function.const ℕ n from rfl, List.map_const,
    List.sum_replicate, List.length_range, smul_eq_mul]

/-- `∑ C(n, k) = 2 ^ n` over `ℤ`. -/
lemma sum_range_choose_int (n : ℕ) :
    ∑ k ∈ Finset.range (n + 1), (n.choose k : ℤ) = 2 ^ n := by
  have h := Nat.sum_range_choose n
  exact_mod_cast congrArg (Nat.cast : ℕ → ℤ) h

/-- `2 * ∑ k * C(n, k) = n * 2 ^ n` over `ℤ`. -/
lemma two_mul_sum_choose (n : ℕ) :
    2 * ∑ k ∈ Finset.range (n + 1), (k : ℤ) * (n.choose k : ℤ) = n * 2 ^ n := by
  cases n with
  | zero => rfl
  | succ j =>
      have key : ∀ k : ℕ, (((k : ℕ) + 1 : ℕ) : ℤ) * ((j + 1).choose (k + 1) : ℤ)
          = ((j : ℤ) + 1) * (j.choose k : ℤ) := by
        intro k
        have h := Nat.succ_mul_choose_eq j k
        have h2 : ((j + 1) * j.choose k : ℤ) = ((j + 1).choose (k + 1) * (k + 1) : ℤ) := by
          exact_mod_cast congrArg (Nat.cast : ℕ → ℤ) h
        push_cast at h2 ⊢
        linarith
      rw [Finset.sum_range_succ']
      simp only [Nat.cast_zero, zero_mul, add_zero]
      rw [Finset.sum_congr rfl fun k _ => key k, ← Finset.mul_sum, sum_range_choose_int j]
      push_cast
      ring

/-- `4 * ∑ k * (k - 1) * C(n, k) = n * (n - 1) * 2 ^ n` over `ℤ`. -/
lemma four_mul_sum_choose (n : ℕ) :
    4 * ∑ k ∈ Finset.range (n + 1), (k : ℤ) * ((k : ℤ) - 1) * (n.choose k : ℤ)
      = (n : ℤ) * ((n : ℤ) - 1) * 2 ^ n := by
  cases n with
  | zero => rfl
  | succ j =>
      cases j with
      | zero => norm_num [Finset.sum_range_succ]
      | succ i =>
          have key : ∀ k : ℕ,
              (((k : ℕ) + 1 : ℕ) : ℤ) * ((((k : ℕ) + 1 : ℕ) : ℤ) - 1)
                  * ((i + 2).choose (k + 1) : ℤ)
              = ((i : ℤ) + 2) * ((k : ℤ) * ((i + 1).choose k : ℤ)) := by
            intro k
            have h := Nat.succ_mul_choose_eq (i + 1) k
            have h2 : ((i + 2) * (i + 1).choose k : ℤ)
                = ((i + 2).choose (k + 1) * (k + 1) : ℤ) := by
              exact_mod_cast congrArg (Nat.cast : ℕ → ℤ) h
            push_cast at h2 ⊢
            nlinarith [h2]
          rw [Finset.sum_range_succ']
          simp only [Nat.cast_zero, zero_mul, add_zero, zero_sub]
          rw [Finset.sum_congr rfl fun k _ => key k, ← Finset.mul_sum]
          have h3 : 2 * ∑ k ∈ Finset.range (i + 2), (k : ℤ) * ((i + 1).choose k : ℤ)
              = ((i : ℤ) + 1) * 2 ^ (i + 1) := by
            have h := two_mul_sum_choose (i + 1)
            push_cast at h
            exact h
          push_cast
          linear_combination (2 * ((i : ℤ) + 2)) * h3

/-- `∑ C(m, k) * (2k - m)² = m * 2 ^ m` over `ℤ`: the centred second moment
of the binomial weights. -/
lemma sum_choose_centred_sq (m : ℕ) :
    ∑ k ∈ Finset.range (m + 1), (m.choose k : ℤ) * (2 * (k : ℤ) - m) ^ 2
      = (m : ℤ) * 2 ^ m := by
  have expand : ∀ k : ℕ, (m.choose k : ℤ) * (2 * (k : ℤ) - m) ^ 2
      = 4 * ((k : ℤ) * ((k : ℤ) - 1) * (m.choose k : ℤ))
        + (4 - 4 * (m : ℤ)) * ((k : ℤ) * (m.choose k : ℤ))
        + (m : ℤ) ^ 2 * (m.choose k : ℤ) := by
    intro k
    ring
  rw [Finset.sum_congr rfl fun k _ => expand k]
  rw [Finset.sum_add_distrib, Finset.sum_add_distrib, ← Finset.mul_sum,
    ← Finset.mul_sum, ← Finset.mul_sum]
  have h2 := two_mul_sum_choose m
  have h4 := four_mul_sum_choose m
  have h1 := sum_range_choose_int m
  linear_combination h4 + (2 - 2 * (m : ℤ)) * h2 + (m : ℤ) ^ 2 * h1

/-- Splitting a double sum of a two-term product pattern into products of
single sums. -/
lemma double_sum_split (n : ℕ) (F G F2 G2 : ℕ → ℝ) :
    ∑ k ∈ Finset.range n, ∑ l ∈ Finset.range n, (F k * G l + F2 k * G2 l)
      = (∑ k ∈ Finset.range n, F k) * (∑ l ∈ Finset.range n, G l)
        + (∑ k ∈ Finset.range n, F2 k) * (∑ l ∈ Finset.range n, G2 l) := by
  rw [Finset.sum_mul_sum, Finset.sum_mul_sum, ← Finset.sum_add_distrib]
  exact Finset.sum_congr rfl fun k _ => Finset.sum_add_distrib

/-- `|α * s|² = |α|² * s²` for a real scale factor `s`. -/
lemma abs_sq_mul_ofReal (α : ℂ) (s : ℝ) :
    Complex.abs (α * (s : ℂ)) ^ 2 = Complex.abs α ^ 2 * s ^ 2 := by
  rw [map_mul, mul_pow, Complex.abs_ofReal, sq_abs]

/-- Squared modulus of a lattice point. -/
lemma abs_sq_latticePoint (size : ℕ) (p : ℕ × ℕ) :
    Complex.abs (latticePoint size p) ^ 2
      = ((2 * (p.1 : ℤ) - ((size : ℤ) - 1) : ℤ) : ℝ) ^ 2
        + ((2 * (p.2 : ℤ) - ((size : ℤ) - 1) : ℤ) : ℝ) ^ 2 := by
  rw [Complex.sq_abs, latticePoint, mul_comm Complex.I, Complex.normSq_add_mul_I]

/-- `secondMoment` of two maps over the same index list. -/
lemma secondMoment_map {α : Type*} (l : List α) (d : α → ℝ) (c : α → ℂ) :
    secondMoment (l.map d) (l.map c)
      = (l.map fun p => d p * Complex.abs (c p) ^ 2).sum := by
  rw [secondMoment, List.zipWith_map_left, List.zipWith_map_right, List.zipWith_same]

/-- Sum of a map divided elementwise by a constant. -/
lemma sum_map_div {α : Type*} (l : List α) (f : α → ℝ) (c : ℝ) :
    (l.map fun a => f a / c).sum = (l.map f).sum / c := by
  simp only [div_eq_mul_inv]
  exact List.sum_map_mul_right l f c⁻¹

/-- The Gaussian-QAM total weight is positive for a nonempty lattice. -/
lemma gaussianTotalWeight_pos (size : ℕ) (nu : ℝ) (h : 1 ≤ size) :
    0 < gaussianTotalWeight size nu := by
  have h0 : size ≠ 0 := by omega
  rw [gaussianTotalWeight, gaussianUnscaled, List.map_map, sum_map_prodIdx]
  exact Finset.sum_pos
    (fun k _ => Finset.sum_pos (fun l _ => Real.exp_pos _)
      (Finset.nonempty_range_iff.mpr h0))
    (Finset.nonempty_range_iff.mpr h0)

/-- The Gaussian-QAM distribution sums to `1`. -/
lemma gaussianDistribution_sum (size : ℕ) (nu : ℝ) (h : 1 ≤ size) :
    (gaussianDistribution size nu).sum = 1 := by
  rw [gaussianDistribution, sum_map_div]
  have hfold : ((gaussianUnscaled size).map fun α =>
      Real.exp (-nu * Complex.abs α ^ 2)).sum = gaussianTotalWeight size nu := rfl
  rw [hfold]
  exact div_self (ne_of_gt (gaussianTotalWeight_pos size nu h))

/-- The binomial-QAM distribution sums to `1`. -/
lemma binomialDistribution_sum (size : ℕ) (h : 1 ≤ size) :
    (binomialDistribution size).sum = 1 := by
  obtain ⟨m, rfl⟩ : ∃ m, size = m + 1 := ⟨size - 1, by omega⟩
  rw [binomialDistribution, sum_map_prodIdx]
  simp only [Nat.add_sub_cancel]
  have hch : ∑ k ∈ Finset.range (m + 1), ((m.choose k : ℝ)) = 2 ^ m := by
    exact_mod_cast Nat.sum_range_choose m
  have step : ∀ k ∈ Finset.range (m + 1),
      ∑ l ∈ Finset.range (m + 1),
        (2 : ℝ) ^ (-(2 * ((m : ℕ) : ℤ))) * (m.choose k : ℝ) * (m.choose l : ℝ)
      = (2 : ℝ) ^ (-(2 * ((m : ℕ) : ℤ))) * (m.choose k : ℝ) * 2 ^ m := by
    intro k _
    rw [← Finset.mul_sum, hch]
  rw [Finset.sum_congr rfl step, ← Finset.sum_mul, ← Finset.mul_sum, hch]
  have hc : (2 : ℝ) ^ (-(2 * ((m : ℕ) : ℤ))) = ((2 : ℝ) ^ (2 * m : ℕ))⁻¹ := by
    have he : (2 * ((m : ℕ) : ℤ)) = ((2 * m : ℕ) : ℤ) := by push_cast; ring
    rw [he, zpow_neg, zpow_natCast]
  rw [hc, two_mul, pow_add]
  have h2 : (2 : ℝ) ^ m ≠ 0 := by positivity
  field_simp

/-- Entries of the binomial-QAM distribution are non-negative. -/
lemma binomialDistribution_nonneg (size : ℕ) :
    ∀ x ∈ binomialDistribution size, 0 ≤ x := by
  intro x hx
  rw [binomialDistribution, List.mem_map] at hx
  obtain ⟨p, _, rfl⟩ := hx
  positivity

/-- Entries of the Gaussian-QAM distribution are non-negative. -/
lemma gaussianDistribution_nonneg (size : ℕ) (nu : ℝ) (h : 1 ≤ size) :
    ∀ x ∈ gaussianDistribution size nu, 0 ≤ x := by
  intro x hx
  rw [gaussianDistribution, List.mem_map] at hx
  obtain ⟨α, _, rfl⟩ := hx
  have hT := gaussianTotalWeight_pos size nu h
  positivity

/-- The binomial-QAM constellation realises a weighted second moment of
`va / 2` (not `va`): the unscaled lattice has second moment `2 * (size - 1)`
and the scale factor squares to `va / (4 * (size - 1))`. -/
lemma binomial_secondMoment (size : ℕ) (va : ℝ) (hsize : 2 ≤ size) (hva : 0 ≤ va) :
    secondMoment (binomialDistribution size) (binomialConstellation size va) = va / 2 := by
  obtain ⟨m, rfl⟩ : ∃ m, size = m + 1 := ⟨size - 1, by omega⟩
  have hm1 : 1 ≤ m := by omega
  have hmR : ((m : ℝ)) ≠ 0 := Nat.cast_ne_zero.mpr (by omega)
  have hsq : Real.sqrt (va / (4 * (m : ℝ))) ^ 2 = va / (4 * (m : ℝ)) := by
    refine Real.sq_sqrt ?_
    have : (0 : ℝ) < (m : ℝ) := Nat.cast_pos.mpr (by omega)
    positivity
  have hzc : ((m + 1 : ℕ) : ℤ) - 1 = (m : ℤ) := by push_cast; ring
  have hch : ∑ k ∈ Finset.range (m + 1), ((m.choose k : ℝ)) = 2 ^ m := by
    exact_mod_cast Nat.sum_range_choose m
  have SS : ∑ k ∈ Finset.range (m + 1),
      (m.choose k : ℝ) * (((2 * (k : ℤ) - (m : ℤ)) : ℤ) : ℝ) ^ 2
      = (m : ℝ) * 2 ^ m := by
    have h := congrArg (fun z : ℤ => (z : ℝ)) (sum_choose_centred_sq m)
    push_cast at h
    push_cast
    exact h
  rw [binomialDistribution, binomialConstellation, secondMoment_map, sum_map_prodIdx]
  simp only [Nat.add_sub_cancel]
  have term : ∀ k l : ℕ,
      (2 : ℝ) ^ (-(2 * ((m : ℕ) : ℤ))) * (m.choose k : ℝ) * (m.choose l : ℝ)
          * Complex.abs (latticePoint (m + 1) (k, l)
              * ((Real.sqrt (va / (4 * ((m : ℕ) : ℝ))) : ℝ) : ℂ)) ^ 2
      = ((2 : ℝ) ^ (-(2 * ((m : ℕ) : ℤ))) * (va / (4 * (m : ℝ)))
            * ((m.choose k : ℝ) * (((2 * (k : ℤ) - (m : ℤ)) : ℤ) : ℝ) ^ 2))
          * (m.choose l : ℝ)
        + (m.choose k : ℝ)
          * ((2 : ℝ) ^ (-(2 * ((m : ℕ) : ℤ))) * (va / (4 * (m : ℝ)))
              * ((m.choose l : ℝ) * (((2 * (l : ℤ) - (m : ℤ)) : ℤ) : ℝ) ^ 2)) := by
    intro k l
    rw [abs_sq_mul_ofReal, abs_sq_latticePoint, hsq]
    dsimp only
    simp only [hzc]
    ring
  refine Eq.trans
    (Finset.sum_congr rfl fun k _ => Finset.sum_congr rfl fun l _ => term k l) ?_
  rw [double_sum_split]
  simp only [hch]
  simp only [← Finset.mul_sum]
  simp only [SS]
  have hc : (2 : ℝ) ^ (-(2 * ((m : ℕ) : ℤ))) = ((2 : ℝ) ^ (2 * m : ℕ))⁻¹ := by
    have he : (2 * ((m : ℕ) : ℤ)) = ((2 * m : ℕ) : ℤ) := by push_cast; ring
    rw [he, zpow_neg, zpow_natCast]
  rw [hc, two_mul m, pow_add]
  have h2 : (2 : ℝ) ^ m ≠ 0 := by positivity
  field_simp
  ring

/-- `gaussianSecondMomentRaw` written as a single map over the unscaled
constellation. -/
lemma gaussianSecondMomentRaw_eq (size : ℕ) (nu : ℝ) :
    gaussianSecondMomentRaw size nu
      = ((gaussianUnscaled size).map fun α =>
          Complex.abs α ^ 2
            * (Real.exp (-nu * Complex.abs α ^ 2) / gaussianTotalWeight size nu)).sum := by
  rw [gaussianSecondMomentRaw, gaussianDistribution, List.zipWith_map_right,
    List.zipWith_same]

/-- The unscaled Gaussian-QAM second moment is positive when `size ≥ 2`. -/
lemma gaussianSecondMomentRaw_pos (size : ℕ) (nu : ℝ) (hsize : 2 ≤ size) :
    0 < gaussianSecondMomentRaw size nu := by
  have hT := gaussianTotalWeight_pos size nu (by omega)
  have hterm : ∀ p : ℕ × ℕ,
      0 ≤ Complex.abs (latticePoint size p) ^ 2
        * (Real.exp (-nu * Complex.abs (latticePoint size p) ^ 2)
            / gaussianTotalWeight size nu) := by
    intro p
    have h1 : (0 : ℝ) < Real.exp (-nu * Complex.abs (latticePoint size p) ^ 2)
        / gaussianTotalWeight size nu := div_pos (Real.exp_pos _) hT
    exact mul_nonneg (sq_nonneg _) h1.le
  rw [gaussianSecondMomentRaw_eq, gaussianUnscaled, List.map_map, sum_map_prodIdx]
  refine Finset.sum_pos'
    (fun k _ => Finset.sum_nonneg fun l _ => hterm (k, l))
    ⟨0, Finset.mem_range.mpr (by omega), ?_⟩
  refine Finset.sum_pos'
    (fun l _ => hterm (0, l))
    ⟨0, Finset.mem_range.mpr (by omega), ?_⟩
  have habs : 0 < Complex.abs (latticePoint size (0, 0)) ^ 2 := by
    rw [abs_sq_latticePoint]
    have hs2 : (2 : ℤ) ≤ (size : ℤ) := by exact_mod_cast hsize
    have hx : ((2 * ((0 : ℕ) : ℤ) - ((size : ℤ) - 1) : ℤ) : ℝ) ≠ 0 := by
      rw [Int.cast_ne_zero]
      omega
    exact add_pos_of_pos_of_nonneg (sq_pos_of_ne_zero hx) (sq_nonneg _)
  exact mul_pos habs (div_pos (Real.exp_pos _) hT)

/-- The Gaussian-QAM constellation realises a weighted second moment of
`va / 2` (not `va`): the scale factor squares to `va / (2 * M)` where `M`
is the unscaled weighted second moment. -/
lemma gaussian_secondMoment (size : ℕ) (va nu : ℝ) (hsize : 2 ≤ size) (hva : 0 ≤ va) :
    secondMoment (gaussianDistribution size nu) (gaussianConstellation size va nu)
      = va / 2 := by
  have hM := gaussianSecondMomentRaw_pos size nu hsize
  have hsq : Real.sqrt (va / (2 * gaussianSecondMomentRaw size nu)) ^ 2
      = va / (2 * gaussianSecondMomentRaw size nu) := by
    refine Real.sq_sqrt ?_
    positivity
  rw [gaussianDistribution, gaussianConstellation, secondMoment_map]
  have hmap : ((gaussianUnscaled size).map fun α =>
        Real.exp (-nu * Complex.abs α ^ 2) / gaussianTotalWeight size nu
          * Complex.abs (α * ((Real.sqrt
              (va / (2 * gaussianSecondMomentRaw size nu)) : ℝ) : ℂ)) ^ 2)
      = ((gaussianUnscaled size).map fun α =>
          (Complex.abs α ^ 2
            * (Real.exp (-nu * Complex.abs α ^ 2) / gaussianTotalWeight size nu))
            * (va / (2 * gaussianSecondMomentRaw size nu))) := by
    refine List.map_congr_left fun α _ => ?_
    rw [abs_sq_mul_ofReal, hsq]
    ring
  rw [hmap, List.sum_map_mul_right, ← gaussianSecondMomentRaw_eq]
  field_simp
  ring

/-- Length of the binomial-QAM distribution. -/
lemma binomialDistribution_length (size : ℕ) :
    (binomialDistribution size).length = size ^ 2 := by
  rw [binomialDistribution, List.length_map, prodIdx_length, sq]

/-- Length of the binomial-QAM constellation. -/
lemma binomialConstellation_length (size : ℕ) (va : ℝ) :
    (binomialConstellation size va).length = size ^ 2 := by
  rw [binomialConstellation, List.length_map, prodIdx_length, sq]

/-- Length of the Gaussian-QAM distribution. -/
lemma gaussianDistribution_length (size : ℕ) (nu : ℝ) :
    (gaussianDistribution size nu).length = size ^ 2 := by
  rw [gaussianDistribution, List.length_map, gaussianUnscaled, List.length_map,
    prodIdx_length, sq]

/-- Length of the Gaussian-QAM constellation. -/
lemma gaussianConstellation_length (size : ℕ) (va nu : ℝ) :
    (gaussianConstellation size va nu).length = size ^ 2 := by
  rw [gaussianConstellation, List.length_map, gaussianUnscaled, List.length_map,
    prodIdx_length, sq]

/-- Elementwise description of `sampleOutput`. -/
lemma sampleOutput_getD (t eta : ℝ) (s : List ℂ) :
    ∀ (nr ni : List ℝ) (i : ℕ), i < s.length → nr.length = s.length →
      ni.length = s.length →
      (sampleOutput t eta s nr ni).getD i 0
        = (Real.sqrt (t * eta / 2) : ℂ) * s.getD i 0 + ((nr.getD i 0 : ℝ) : ℂ)
          + Complex.I * ((ni.getD i 0 : ℝ) : ℂ) := by
  induction s with
  | nil =>
      intro nr ni i hi _ _
      exact absurd hi (by simp)
  | cons a s ih =>
      intro nr ni i hi hr hx
      match nr, ni with
      | [], _ => simp at hr
      | _ :: _, [] => simp at hx
      | r :: nr, x :: ni =>
          match i with
          | 0 => rfl
          | i + 1 =>
              have hstep := ih nr ni i (by simpa using Nat.lt_of_succ_lt_succ hi)
                (by simpa using hr) (by simpa using hx)
              simpa [sampleOutput] using hstep

/-- `sampleOutput` commutes with elementwise affine combinations of the
input symbols (the noise draws being fixed). -/
lemma sampleOutput_affineCombo (t eta : ℝ) (c : ℂ) :
    ∀ (s s2 : List ℂ) (nr ni : List ℝ),
      sampleOutput t eta (affineCombo c s s2) nr ni
        = affineCombo c (sampleOutput t eta s nr ni)
            (sampleOutput t eta s2 nr ni) := by
  intro s
  induction s with
  | nil => intro s2 nr ni; simp [sampleOutput, affineCombo]
  | cons a s ih =>
      intro s2 nr ni
      cases s2 with
      | nil => simp [sampleOutput, affineCombo]
      | cons b s2 =>
          cases nr with
          | nil => simp [sampleOutput, affineCombo]
          | cons r nr =>
              cases ni with
              | nil => simp [sampleOutput, affineCombo]
              | cons x ni =>
                  simp only [sampleOutput, affineCombo, List.zip_cons_cons,
                    List.zipWith_cons_cons]
                  refine List.cons_eq_cons.mpr ⟨by ring, ?_⟩
                  exact ih s2 nr ni

/-- Evaluation of the ideal symplectic eigenvalues at `(V, W, Z) = (2, 3, 0)`. -/
lemma idealSympl_example : idealSympl 2 3 0 = (3, 2, 2) := by
  show (Real.sqrt ((delta 2 3 0 + Real.sqrt ((delta 2 3 0) ^ 2 - 4 * gamma 2 3 0)) / 2),
        Real.sqrt ((delta 2 3 0 - Real.sqrt ((delta 2 3 0) ^ 2 - 4 * gamma 2 3 0)) / 2),
        (2 : ℝ) - 0 ^ 2 / (3 + 1)) = (3, 2, 2)
  have hd : delta 2 3 0 = 13 := by norm_num [delta]
  have hg : gamma 2 3 0 = 36 := by norm_num [gamma]
  rw [hd, hg]
  have h25 : Real.sqrt ((13 : ℝ) ^ 2 - 4 * 36) = 5 := sqrt_eval (by norm_num) (by norm_num)
  rw [h25]
  have h9 : Real.sqrt (((13 : ℝ) + 5) / 2) = 3 := sqrt_eval (by norm_num) (by norm_num)
  have h4 : Real.sqrt (((13 : ℝ) - 5) / 2) = 2 := sqrt_eval (by norm_num) (by norm_num)
  rw [h9, h4]
  norm_num

/-- Evaluation of `covariance()` on the example simulator state. -/
lemma simExample_covariance : simExample.covariance = (2, 3, 0) := by
  show ((1 : ℝ) + 1, 2 * 1 + 1,
    2 * 0 - 2 * Real.sqrt (0 * ((1 : ℝ) - 2 * 0 ^ 2 / 1))) = (2, 3, 0)
  norm_num

/-! ## Claims -/

/-- Claim C1: for every `Simulator` instance (any of the three variants),
`covariance()` returns `(V, W, Z_star)` with `V = modulation.va + 1`,
`W = 2*n_B + 1` and `Z_star` the real part of
`2*c1 - 2*sqrt(modulation.w * (n_B - 2*c2**2 / modulation.va))`, under the
precondition `modulation.va ≠ 0`. -/
theorem covariance_formula (s : Simulator) (hva : s.va ≠ 0) :
    s.covariance =
      (s.va + 1, 2 * s.nB + 1,
        (((2 * s.c1
            - 2 * Real.sqrt (s.w * (s.nB - 2 * s.c2 ^ 2 / s.va)) : ℝ) : ℂ)).re) := by
  simp [Simulator.covariance]

/-- Witness for C1 at a concrete simulator state. -/
theorem covariance_formula_witness :
    simExample.covariance =
      (simExample.va + 1, 2 * simExample.nB + 1,
        (((2 * simExample.c1
            - 2 * Real.sqrt (simExample.w
                * (simExample.nB
                    - 2 * simExample.c2 ^ 2 / simExample.va)) : ℝ) : ℂ)).re) :=
  covariance_formula simExample (by norm_num [simExample])

/-- Claim C2: for every `Simulator`, `skr()` returns
`beta * log2(1 + snr()) - detector.holevo_bound(V, W, Z)` with
`(V, W, Z) = covariance()`, under the preconditions `snr() > -1` and that
all symplectic eigenvalues computed by the detector strictly exceed `1`. -/
theorem skr_formula (s : Simulator)
    (h1 : -1 < s.snr)
    (h2 : ∀ v ∈ s.detector.sympl s.covariance.1 s.covariance.2.1 s.covariance.2.2,
      1 < v) :
    s.skr = s.beta * Real.logb 2 (1 + s.snr)
      - s.detector.holevoBound s.covariance.1 s.covariance.2.1 s.covariance.2.2 := rfl

/-- Witness for C2 at a concrete simulator state with ideal detector whose
eigenvalues `(3, 2, 2)` all exceed `1`. -/
theorem skr_formula_witness :
    simExample.skr = simExample.beta * Real.logb 2 (1 + simExample.snr)
      - simExample.detector.holevoBound simExample.covariance.1
          simExample.covariance.2.1 simExample.covariance.2.2 := by
  refine skr_formula simExample (by norm_num [simExample]) ?_
  intro v hv
  rw [simExample_covariance] at hv
  simp only [simExample, Detector.sympl, idealSympl_example] at hv
  simp only [List.mem_cons, List.not_mem_nil, or_false] at hv
  rcases hv with rfl | rfl | rfl <;> norm_num

/-- Claim C4: `NoisyHeterodyneDetector.sympl` returns the four values given
by the closed-form expressions `r1`, `r2` evaluated with the auxiliary
constant `nu` equal to `1` (the dead first assignment
`nu = 1 + 2*vel/(1 - eta)` is unconditionally overwritten), and the value
`nu = 1` is not interchangeable with the documented formula: `r1` differs
between the two at a concrete input. -/
theorem noisy_sympl_nu_one :
    (∀ eta vel V W Z : ℝ, 0 < eta → eta < 1 → 0 ≤ vel →
      noisySympl eta vel V W Z =
        (Real.sqrt ((delta V W Z
            + Real.sqrt ((delta V W Z) ^ 2 - 4 * gamma V W Z)) / 2),
         Real.sqrt ((delta V W Z
            - Real.sqrt ((delta V W Z) ^ 2 - 4 * gamma V W Z)) / 2),
         Real.sqrt (0.5 * (noisyR1 eta 1 V W Z
            + Real.sqrt ((noisyR1 eta 1 V W Z) ^ 2 - 4 * noisyR2 eta 1 V W Z))),
         Real.sqrt (0.5 * (noisyR1 eta 1 V W Z
            - Real.sqrt ((noisyR1 eta 1 V W Z) ^ 2 - 4 * noisyR2 eta 1 V W Z)))))
    ∧ noisyR1 (1 / 2) (1 + 2 * (1 / 2) / (1 - 1 / 2)) 2 2 0
        ≠ noisyR1 (1 / 2) 1 2 2 0 := by
  constructor
  · intro eta vel V W Z _ _ _
    rfl
  · norm_num [noisyR1]

/-- Witness for C4 at `eta = 1/2`, `vel = 1/4`, `(V, W, Z) = (2, 3, 1)`. -/
theorem noisy_sympl_nu_one_witness :
    noisySympl (1 / 2) (1 / 4) 2 3 1 =
      (Real.sqrt ((delta 2 3 1
          + Real.sqrt ((delta 2 3 1) ^ 2 - 4 * gamma 2 3 1)) / 2),
       Real.sqrt ((delta 2 3 1
          - Real.sqrt ((delta 2 3 1) ^ 2 - 4 * gamma 2 3 1)) / 2),
       Real.sqrt (0.5 * (noisyR1 (1 / 2) 1 2 3 1
          + Real.sqrt ((noisyR1 (1 / 2) 1 2 3 1) ^ 2
              - 4 * noisyR2 (1 / 2) 1 2 3 1))),
       Real.sqrt (0.5 * (noisyR1 (1 / 2) 1 2 3 1
          - Real.sqrt ((noisyR1 (1 / 2) 1 2 3 1) ^ 2
              - 4 * noisyR2 (1 / 2) 1 2 3 1)))) :=
  noisy_sympl_nu_one.1 (1 / 2) (1 / 4) 2 3 1 (by norm_num) (by norm_num) (by norm_num)

/-- Claim C5: `IdealHeterodyneDetector.holevo_bound(V, W, Z)` equals
`g((v1-1)/2) + g((v2-1)/2) - g((v3-1)/2)` with
`v1, v2 = sqrt((delta ± sqrt(delta² - 4*gamma))/2)` and
`v3 = V - Z²/(W+1)`, under the stated domain preconditions. -/
theorem ideal_holevo_formula (V W Z : ℝ)
    (h1 : 4 * gamma V W Z ≤ (delta V W Z) ^ 2)
    (h2 : W ≠ -1)
    (h3 : 1 < Real.sqrt ((delta V W Z
        + Real.sqrt ((delta V W Z) ^ 2 - 4 * gamma V W Z)) / 2))
    (h4 : 1 < Real.sqrt ((delta V W Z
        - Real.sqrt ((delta V W Z) ^ 2 - 4 * gamma V W Z)) / 2))
    (h5 : 1 < V - Z ^ 2 / (W + 1)) :
    idealHolevoBound V W Z =
      g ((Real.sqrt ((delta V W Z
          + Real.sqrt ((delta V W Z) ^ 2 - 4 * gamma V W Z)) / 2) - 1) / 2)
      + g ((Real.sqrt ((delta V W Z
          - Real.sqrt ((delta V W Z) ^ 2 - 4 * gamma V W Z)) / 2) - 1) / 2)
      - g ((V - Z ^ 2 / (W + 1) - 1) / 2) := rfl

/-- Witness for C5 at `(V, W, Z) = (2, 2, 0)`, where the eigenvalues are
`(2, 2, 2)`. -/
theorem ideal_holevo_formula_witness :
    idealHolevoBound 2 2 0 =
      g ((Real.sqrt ((delta 2 2 0
          + Real.sqrt ((delta 2 2 0) ^ 2 - 4 * gamma 2 2 0)) / 2) - 1) / 2)
      + g ((Real.sqrt ((delta 2 2 0
          - Real.sqrt ((delta 2 2 0) ^ 2 - 4 * gamma 2 2 0)) / 2) - 1) / 2)
      - g (((2 : ℝ) - 0 ^ 2 / (2 + 1) - 1) / 2) := by
  have hd : delta 2 2 0 = 8 := by norm_num [delta]
  have hg : gamma 2 2 0 = 16 := by norm_num [gamma]
  have h0 : Real.sqrt ((delta 2 2 0) ^ 2 - 4 * gamma 2 2 0) = 0 := by
    rw [hd, hg]
    exact sqrt_eval (by norm_num) (by norm_num)
  have h2 : Real.sqrt ((delta 2 2 0
      + Real.sqrt ((delta 2 2 0) ^ 2 - 4 * gamma 2 2 0)) / 2) = 2 := by
    rw [h0, hd]
    exact sqrt_eval (by norm_num) (by norm_num)
  have h2b : Real.sqrt ((delta 2 2 0
      - Real.sqrt ((delta 2 2 0) ^ 2 - 4 * gamma 2 2 0)) / 2) = 2 := by
    rw [h0, hd]
    exact sqrt_eval (by norm_num) (by norm_num)
  exact ideal_holevo_formula 2 2 0 (by rw [hd, hg]; norm_num) (by norm_num)
    (by rw [h2]; norm_num) (by rw [h2b]; norm_num) (by norm_num)

/-- Claim C6: `GaussianChannelAsymptoticCalculator` sets
`n_B = t*(va + xi)/2`,
`c1 = sqrt(t) * Re(trace(tau_half * a * tau_half * a_dagger))`,
`c2 = sqrt(t)*va/2`, and its `snr()` returns
`t*va*eta / (2 + 2*vel + eta*t*xi)`.  The stored `a` has real entries, so
its conjugate transpose coincides with the transpose `a.T` used by the
source. -/
theorem gaussian_channel_asymptotic_spec (q : QAM) (t xi : ℝ) (d : Detector)
    (beta : ℝ) :
    (gaussianChannelAsymptoticCalculator q t xi d beta).nB = t * (q.va + xi) / 2
    ∧ (gaussianChannelAsymptoticCalculator q t xi d beta).c1
        = Real.sqrt t * (Matrix.trace (q.tauHalf * annihilationMatrix q.dim
            * q.tauHalf * Matrix.transpose (annihilationMatrix q.dim))).re
    ∧ (gaussianChannelAsymptoticCalculator q t xi d beta).c2
        = Real.sqrt t * q.va / 2
    ∧ (gaussianChannelAsymptoticCalculator q t xi d beta).snr
        = t * q.va * d.eta / (2 + 2 * d.vel + d.eta * t * xi)
    ∧ Matrix.conjTranspose (annihilationMatrix q.dim)
        = Matrix.transpose (annihilationMatrix q.dim) := by
  refine ⟨rfl, rfl, rfl, rfl, ?_⟩
  ext i j
  simp [annihilationMatrix, Matrix.conjTranspose_apply, Matrix.transpose_apply,
    Complex.conj_ofReal]

/-- Claim C9, counterexample: with `va = 0`, the `FiniteSizeSimulator`
variant (whose `c1`, `c2`, `n_B` are numpy scalars) does not fail: numpy
division by zero only warns, and `covariance()` returns a numeric triple.
The field values `va = 0`, `w = 0`, `c1 = 0`, `c2 = 0`, `n_B = 1` are those
of a finite-size run over the all-zero constellation produced by `va = 0`. -/
theorem covariance_numpy_va_zero_returns :
    covarianceNumpy 0 0 0 0 1 = (1, 3, 0) := by
  rw [covarianceNumpy, npdiv]
  norm_num

/-- Claim C9, amended: with `va = 0`, `covariance()` raises
`ZeroDivisionError` in the two asymptotic calculators, whose `c2` is a
plain Python float; in `FiniteSizeSimulator`, whose scalars are numpy
values, the division does not raise and `covariance()` returns a numeric
triple. -/
theorem covariance_divzero_behaviour (va w c1 c2 nB : ℝ) (h : va = 0) :
    covariancePython va w c1 c2 nB = .error .zeroDivision
    ∧ ∃ z : ℝ, covarianceNumpy va w c1 c2 nB = (va + 1, 2 * nB + 1, z) := by
  subst h
  exact ⟨by simp [covariancePython, pydiv, Except.map], ⟨_, rfl⟩⟩

/-- Witness for the amended C9 at concrete scalars. -/
theorem covariance_divzero_behaviour_witness :
    covariancePython 0 1 1 1 1 = .error .zeroDivision
    ∧ ∃ z : ℝ, covarianceNumpy 0 1 1 1 1 = (0 + 1, 2 * 1 + 1, z) :=
  covariance_divzero_behaviour 0 1 1 1 1 rfl

/-- Claim C10: the noisy detector's symplectic eigenvalues and Holevo
bound do not depend on `vel` at all — two detectors with the same `eta`
and different electronic noises return identical results. -/
theorem noisy_detector_ignores_vel (eta vel1 vel2 V W Z : ℝ)
    (h1 : 0 < eta) (h2 : eta < 1) (h3 : 0 ≤ vel1) (h4 : 0 ≤ vel2) :
    noisySympl eta vel1 V W Z = noisySympl eta vel2 V W Z
    ∧ noisyHolevoBound eta vel1 V W Z = noisyHolevoBound eta vel2 V W Z :=
  ⟨rfl, rfl⟩

/-- Witness for C10 at `eta = 1/2`, `vel1 = 0`, `vel2 = 1`,
`(V, W, Z) = (1, 1, 0)`. -/
theorem noisy_detector_ignores_vel_witness :
    noisySympl (1 / 2) 0 1 1 0 = noisySympl (1 / 2) 1 1 1 0
    ∧ noisyHolevoBound (1 / 2) 0 1 1 0 = noisyHolevoBound (1 / 2) 1 1 1 0 :=
  noisy_detector_ignores_vel (1 / 2) 0 1 1 1 0 (by norm_num) (by norm_num)
    (by norm_num) (by norm_num)

/-- Claim C3, counterexample: for the constructed `BinomialQAM` with
`size = 2` and `va = 2`, the weighted second moment of the constellation is
`1`, not `va = 2`. -/
theorem binomial_secondMoment_ne_va :
    secondMoment (binomialDistribution 2) (binomialConstellation 2 2) = 1
    ∧ secondMoment (binomialDistribution 2) (binomialConstellation 2 2) ≠ 2 := by
  rw [binomial_secondMoment 2 2 (by norm_num) (by norm_num)]
  norm_num

/-- Claim C3, amended: for every constructed `BinomialQAM` and
`GaussianQAM` modulation with `size ≥ 2` and `va > 0`, the weighted second
moment `Σ_k distribution[k] * |constellation[k]|²` equals `va / 2` (not
`va`). -/
theorem qam_secondMoment_half_va :
    (∀ (size : ℕ) (va : ℝ), 2 ≤ size → 0 < va →
        secondMoment (binomialDistribution size) (binomialConstellation size va)
          = va / 2)
    ∧ (∀ (size : ℕ) (va nu : ℝ), 2 ≤ size → 0 < va → 0 < nu →
        secondMoment (gaussianDistribution size nu)
            (gaussianConstellation size va nu)
          = va / 2) :=
  ⟨fun size va h1 h2 => binomial_secondMoment size va h1 h2.le,
   fun size va nu h1 h2 _ => gaussian_secondMoment size va nu h1 h2.le⟩

/-- Witness for the amended C3 at `size = 2`, `va = 2`, `nu = 1`. -/
theorem qam_secondMoment_half_va_witness :
    secondMoment (binomialDistribution 2) (binomialConstellation 2 2) = 2 / 2
    ∧ secondMoment (gaussianDistribution 2 1) (gaussianConstellation 2 2 1)
        = 2 / 2 :=
  ⟨qam_secondMoment_half_va.1 2 2 (by norm_num) (by norm_num),
   qam_secondMoment_half_va.2 2 2 1 (by norm_num) (by norm_num) (by norm_num)⟩

/-- Claim C7: `GaussianChannel.sample_output(symbols, detector)` returns an
array of the same length `n`, elementwise equal to
`sqrt(t*eta/2)*symbols + noise_r + 1j*noise_i`; the standard deviation used
for the two noise draws is `0.5*sqrt(1 + vel + eta*t*xi/2)`; and with the
two noise draws fixed as parameters the result is a deterministic affine
function of the input symbols. -/
theorem sample_output_spec (t xi eta vel : ℝ) (symbols : List ℂ)
    (noiseR noiseI : List ℝ)
    (hR : noiseR.length = symbols.length) (hI : noiseI.length = symbols.length) :
    (sampleOutput t eta symbols noiseR noiseI).length = symbols.length
    ∧ (∀ i : ℕ, i < symbols.length →
        (sampleOutput t eta symbols noiseR noiseI).getD i 0
          = (Real.sqrt (t * eta / 2) : ℂ) * symbols.getD i 0
            + ((noiseR.getD i 0 : ℝ) : ℂ) + Complex.I * ((noiseI.getD i 0 : ℝ) : ℂ))
    ∧ noiseSigma t xi eta vel = 0.5 * Real.sqrt (1 + vel + eta * t * xi / 2)
    ∧ (∀ (symbols2 : List ℂ) (c : ℂ), symbols2.length = symbols.length →
        sampleOutput t eta (affineCombo c symbols symbols2) noiseR noiseI
          = affineCombo c (sampleOutput t eta symbols noiseR noiseI)
              (sampleOutput t eta symbols2 noiseR noiseI)) := by
  refine ⟨?_, fun i hi => sampleOutput_getD t eta symbols noiseR noiseI i hi hR hI,
    rfl, fun symbols2 c _ => sampleOutput_affineCombo t eta c symbols symbols2 noiseR noiseI⟩
  simp [sampleOutput, List.length_zipWith, List.length_zip, hR, hI]

/-- Witness for C7 on the one-symbol input `[1]` with zero noise draws. -/
theorem sample_output_spec_witness :
    (sampleOutput 1 1 [1] [0] [0]).length = ([1] : List ℂ).length
    ∧ (sampleOutput 1 1 [1] [0] [0]).getD 0 0
        = (Real.sqrt (1 * 1 / 2) : ℂ) * ([1] : List ℂ).getD 0 0
          + ((([0] : List ℝ).getD 0 0 : ℝ) : ℂ)
          + Complex.I * ((([0] : List ℝ).getD 0 0 : ℝ) : ℂ)
    ∧ noiseSigma 1 0 1 0 = 0.5 * Real.sqrt (1 + 0 + 1 * 1 * 0 / 2)
    ∧ sampleOutput 1 1 (affineCombo 2 [1] [0]) [0] [0]
        = affineCombo 2 (sampleOutput 1 1 [1] [0] [0])
            (sampleOutput 1 1 [0] [0] [0]) := by
  obtain ⟨h1, h2, h3, h4⟩ := sample_output_spec 1 0 1 0 [1] [0] [0] rfl rfl
  exact ⟨h1, h2 0 (by norm_num), h3, h4 [0] 2 rfl⟩

/-- Claim C8: for every constructed `BinomialQAM` and `GaussianQAM`
modulation with side length `size ≥ 1`, the distribution entries are
non-negative and sum to `1` exactly, and
`len(distribution) = len(constellation) = size²`. -/
theorem qam_distribution_normalised (size : ℕ) (va nu : ℝ) (h : 1 ≤ size) :
    ((binomialDistribution size).sum = 1
      ∧ (∀ x ∈ binomialDistribution size, 0 ≤ x)
      ∧ (binomialDistribution size).length = size ^ 2
      ∧ (binomialConstellation size va).length = size ^ 2)
    ∧ ((gaussianDistribution size nu).sum = 1
      ∧ (∀ x ∈ gaussianDistribution size nu, 0 ≤ x)
      ∧ (gaussianDistribution size nu).length = size ^ 2
      ∧ (gaussianConstellation size va nu).length = size ^ 2) :=
  ⟨⟨binomialDistribution_sum size h, binomialDistribution_nonneg size,
    binomialDistribution_length size, binomialConstellation_length size va⟩,
   ⟨gaussianDistribution_sum size nu h, gaussianDistribution_nonneg size nu h,
    gaussianDistribution_length size nu, gaussianConstellation_length size va nu⟩⟩

/-- Witness for C8 at `size = 2`, `va = 1`, `nu = 1`. -/
theorem qam_distribution_normalised_witness :
    ((binomialDistribution 2).sum = 1
      ∧ (∀ x ∈ binomialDistribution 2, 0 ≤ x)
      ∧ (binomialDistribution 2).length = 2 ^ 2
      ∧ (binomialConstellation 2 1).length = 2 ^ 2)
    ∧ ((gaussianDistribution 2 1).sum = 1
      ∧ (∀ x ∈ gaussianDistribution 2 1, 0 ≤ x)
      ∧ (gaussianDistribution 2 1).length = 2 ^ 2
      ∧ (gaussianConstellation 2 1 1).length = 2 ^ 2) :=
  qam_distribution_normalised 2 1 1 (by norm_num)

end QosstSim
